import Mathlib

/-!
Shallow embedding of the brizzo exploration front end.

The source is a single script that discovers and renders a graph of rooms:
a cache maps room identifiers to either the sentinel `UNKNOWN` or a full
room record, a trail stack supports backtracking, and an asynchronous main
loop repeatedly moves to the first unknown neighbour of the current room
or backtracks along the trail.  Machine-level JavaScript details that the
algorithm observes (truthiness short-circuits, `undefined` property access
on non-objects, `JSON.parse` of `undefined`) are modelled explicitly.
-/

namespace Brizzo

/-- Room record as served by the API: the identifier `xid`, the list `see`
of identifiers of neighbouring rooms, and display data (`pos` corner points
and a colour) that the algorithm itself never inspects. -/
structure Room where
  xid : Nat
  see : List Nat
  pos : List (Int × Int)
  col : Nat
deriving DecidableEq, Repr

/-- Value stored in the `rooms` cache object for a present key: in the
source, `rooms[xid]` is either the sentinel `UNKNOWN` (`true`) or a room
object.  An absent key (`undefined` in the source) is modelled by `none`
at lookup time. -/
inductive Entry where
  | unknown : Entry
  | known : Room → Entry
deriving DecidableEq, Repr

/-- The `rooms` cache object, as an association list with unique keys. -/
abbrev RoomsMap := List (Nat × Entry)

/-- Lookup in the cache: `rooms[xid]`, with `none` for `undefined`. -/
def lookupRoom : RoomsMap → Nat → Option Entry
  | [], _ => none
  | (k', v) :: rest, k => if k' = k then some v else lookupRoom rest k

/-- Assignment `rooms[k] = v`: replaces the binding if the key is present,
otherwise appends a new binding. -/
def setRoom : RoomsMap → Nat → Entry → RoomsMap
  | [], k, v => [(k, v)]
  | (k', v') :: rest, k, v =>
      if k' = k then (k, v) :: rest else (k', v') :: setRoom rest k v

/-- Entry of the `trail` array.  The main loop pushes the full room object
(`trail.push(current)`), while `cache` pushes the bare identifier
(`trail.push(room.xid)`), so both shapes occur on the same stack. -/
inductive TrailEntry where
  | obj : Room → TrailEntry
  | raw : Nat → TrailEntry
deriving DecidableEq, Repr

/-- Evaluation of `back.xid` in the source: a room object yields its
identifier, while a bare identifier (a primitive) yields `undefined`,
modelled as `none`. -/
def TrailEntry.backXid : TrailEntry → Option Nat
  | .obj r => some r.xid
  | .raw _ => none

/-- Mutable page state: the cache, the trail (head of the list is the top
of the JavaScript array), the rooms passed to `paint` in order, the number
of `alert` calls raised by the request error handler, and the number of
request round trips performed. -/
structure St where
  rooms : RoomsMap
  trail : List TrailEntry
  paints : List Room
  alerts : Nat
  requests : Nat
deriving DecidableEq, Repr

/-- Page state at load time: empty cache, empty trail, nothing painted. -/
def St.init : St := ⟨[], [], [], 0, 0⟩

/-- JavaScript exceptions observed by the embedding: the `TypeError` of a
property access on `undefined`, and the `SyntaxError` of `JSON.parse`
applied to the `undefined` produced by the alert handler. -/
inductive JsErr where
  | typeError : JsErr
  | syntaxError : JsErr
deriving DecidableEq, Repr

/-- Marks a room as known (source `remember`): if `rooms[xid]` is
`undefined` it is set to `UNKNOWN`, otherwise nothing happens. -/
def rememberOp (m : RoomsMap) (xid : Nat) : RoomsMap :=
  match lookupRoom m xid with
  | none => setRoom m xid .unknown
  | some _ => m

/-- Adds a room to the cache (source `cache`, applied to an actual room
object): if `rooms[room.xid]` is `undefined` or `UNKNOWN`, push the bare
identifier onto the trail, store the record, and run `remember` over the
neighbour list; in every case the room itself is returned. -/
def cacheRun (room : Room) (s : St) : St × Room :=
  if lookupRoom s.rooms room.xid = none
      ∨ lookupRoom s.rooms room.xid = some .unknown then
    let s1 : St := { s with trail := .raw room.xid :: s.trail }
    let s2 : St := { s1 with rooms := setRoom s1.rooms room.xid (.known room) }
    let s3 : St := { s2 with rooms := room.see.foldl rememberOp s2.rooms }
    (s3, room)
  else
    (s, room)

/-- The `cache` function at its public interface, where the argument may be
`undefined` (`none`).  The source condition is
`room && rooms[room.xid] === undefined || rooms[room.xid] === UNKNOWN`:
`&&` binds tighter than `||`, so the truthiness guard `room &&` protects
only the first disjunct; when the first disjunct is falsy the second one
evaluates `rooms[room.xid]`, and on a falsy `room` the access `room.xid`
throws a `TypeError`. -/
def cacheJS (room : Option Room) (s : St) : Except JsErr (St × Room) :=
  match room with
  | some r => .ok (cacheRun r s)
  | none => .error .typeError

/-- One request round trip (source `req`).  `resp = some room` models an
`ok` response whose body parses to `room`; `resp = none` models a non-ok
status or a network error: the `catch` handler raises exactly one `alert`
and resolves with `undefined`, and the final `.then(JSON.parse)` then
rejects the pipeline with a `SyntaxError`. -/
def reqRun (resp : Option Room) (s : St) : St × Except JsErr Room :=
  let s1 : St := { s with requests := s.requests + 1 }
  match resp with
  | some room => (s1, .ok room)
  | none => ({ s1 with alerts := s1.alerts + 1 }, .error .syntaxError)

/-- The remote service: the response to the initial `GET` of `begin`, and
the set of rooms addressable by a `PUT` move.  A failing request is
modelled by the absence of a response. -/
structure Server where
  start : Option Room
  rooms : List Room
deriving Repr

/-- Response of the server to a move request for `xid`. -/
def moveResp (g : Server) (xid : Nat) : Option Room :=
  g.rooms.find? (fun r => r.xid == xid)

/-- Starts over (source `begin`): perform the initial request and feed the
result to `cache`.  Note that `begin`, unlike `move`, does not call
`paint`. -/
def beginRun (g : Server) (s : St) : St × Except JsErr Room :=
  match reqRun g.start s with
  | (s1, .error e) => (s1, .error e)
  | (s1, .ok room) =>
      let p := cacheRun room s1
      (p.1, .ok p.2)

/-- Paints a room (source `paint`): the rendering side effect is recorded
as an append to the paint log, and the room is passed through. -/
def paintRun (room : Room) (s : St) : St × Room :=
  ({ s with paints := s.paints ++ [room] }, room)

/-- Moves to a neighbouring room (source `move`): request, then `cache`,
then `paint`. -/
def moveRun (g : Server) (xid : Nat) (s : St) : St × Except JsErr Room :=
  match reqRun (moveResp g xid) s with
  | (s1, .error e) => (s1, .error e)
  | (s1, .ok room) =>
      let p := cacheRun room s1
      let q := paintRun p.2 p.1
      (q.1, .ok q.2)

/-- Frontier selection in the main loop:
`current.see.find(xid => rooms[xid] === UNKNOWN)`. -/
def selectNext (m : RoomsMap) (see : List Nat) : Option Nat :=
  see.find? (fun xid => lookupRoom m xid == some .unknown)

/-- Outcome of the inner backtracking loop: either a move was issued from
some popped entry, or the trail was exhausted. -/
inductive BtOut where
  | moved : St × Except JsErr Room → BtOut
  | exhausted : St → BtOut

/-- Inner backtracking loop of `main`, recursing on the remaining trail:
pop entries one at a time; on the first popped `back` with
`current.see.indexOf(back.xid) >= 0`, issue the move and stop.  The
`trail` field of `s` is dead during the recursion and is overwritten with
the remaining trail at both exits. -/
def backtrackGo (g : Server) (cur : Room) : List TrailEntry → St → BtOut
  | [], s => .exhausted { s with trail := [] }
  | back :: rest, s =>
      match back.backXid with
      | some bx =>
          if bx ∈ cur.see then .moved (moveRun g bx { s with trail := rest })
          else backtrackGo g cur rest s
      | none => backtrackGo g cur rest s

/-- The inner backtracking loop, started from the current trail. -/
def backtrackLoop (g : Server) (cur : Room) (s : St) : BtOut :=
  backtrackGo g cur s.trail s

/-- The main loop (source `main`), with explicit fuel for the outer
`while`; `none` means the fuel ran out before the loop ended.  A rejected
request promise makes the surrounding `await` throw, aborting the loop
with the state at the moment of rejection. -/
def mainLoop (g : Server) : Nat → Room → St → Option (Except (JsErr × St) St)
  | 0, _, _ => none
  | fuel + 1, cur, s =>
      match selectNext s.rooms cur.see with
      | some xid =>
          let s1 : St := { s with trail := .obj cur :: s.trail }
          match moveRun g xid s1 with
          | (s2, .error e) => some (.error (e, s2))
          | (s2, .ok next) => mainLoop g fuel next s2
      | none =>
          match s.trail with
          | [] => some (.ok s)
          | _ :: _ =>
              match backtrackLoop g cur s with
              | .moved (s2, .error e) => some (.error (e, s2))
              | .moved (s2, .ok next) => mainLoop g fuel next s2
              | .exhausted s2 => mainLoop g fuel cur s2

/-- A whole session (source `main`): `begin`, then the loop. -/
def run (g : Server) (fuel : Nat) : Option (Except (JsErr × St) St) :=
  match beginRun g St.init with
  | (s1, .error e) => some (.error (e, s1))
  | (s1, .ok cur) => mainLoop g fuel cur s1

/-- Projection of a session outcome onto the identifiers of the rooms
painted, in order; `none` if the loop did not terminate normally. -/
def paintTrace (o : Option (Except (JsErr × St) St)) : Option (List Nat) :=
  match o with
  | some (.ok s) => some (s.paints.map Room.xid)
  | _ => none

/-- Projection of a session outcome onto the number of requests issued. -/
def requestsOf (o : Option (Except (JsErr × St) St)) : Option Nat :=
  match o with
  | some (.ok s) => some s.requests
  | _ => none

/-! Concrete servers used by scenario runs. -/

/-- Room A of the spec scenario: sees B and C. -/
def roomA : Room := ⟨0, [1, 2], [(0, 0), (1, 0), (1, 1)], 1⟩

/-- Room B of the spec scenario: sees A. -/
def roomB : Room := ⟨1, [0], [(1, 0), (2, 0), (2, 1)], 2⟩

/-- Room C of the spec scenario: sees A. -/
def roomC : Room := ⟨2, [0], [(0, 1), (1, 1), (1, 2)], 3⟩

/-- The scenario graph A sees [B, C], B sees [A], C sees [A], started
at A. -/
def scenario : Server := ⟨some roomA, [roomA, roomB, roomC]⟩

/-- A single room with no neighbours. -/
def roomSolo : Room := ⟨0, [], [(0, 0), (1, 0), (1, 1)], 1⟩

/-- The single-room graph, started at its only room. -/
def gSolo : Server := ⟨some roomSolo, [roomSolo]⟩

/-- A server that fails every request. -/
def gFail : Server := ⟨none, []⟩

/-- Page state of the scenario session right after the initial fetch of A
and the move to B: A and B are known, C is referenced but unknown, and the
trail holds B's bare id, the departed room object A, and A's bare id. -/
def midState : St :=
  ⟨[(0, .known roomA), (1, .known roomB), (2, .unknown)],
    [.raw 1, .obj roomA, .raw 0], [roomB], 0, 2⟩

/-- Page state of the single-room session right after the initial fetch:
only the solo room is known and the trail holds its bare id. -/
def midSolo : St := ⟨[(0, .known roomSolo)], [.raw 0], [], 0, 1⟩

/-! Abstract cache operations, orderings and graph-level measures used to
state invariants of the algorithm. -/

/-- The two mutations the program ever applies to the cache: recording a
fetched room (`cache` run on a room object) and marking a referenced id
(`remember`). -/
inductive CacheOp where
  | fetched : Room → CacheOp
  | referenced : Nat → CacheOp

/-- Applies one cache operation to the page state. -/
def applyOp (s : St) : CacheOp → St
  | .fetched r => (cacheRun r s).1
  | .referenced x => { s with rooms := rememberOp s.rooms x }

/-- Applies a sequence of cache operations from left to right. -/
def applyOps (ops : List CacheOp) (s : St) : St := ops.foldl applyOp s

/-- Forward order on the cache states of a single id: `none` (unseen) may
become anything, `unknown` may stay or become known, and a known record
must remain exactly itself. -/
def entryLe : Option Entry → Option Entry → Prop
  | none, _ => True
  | some .unknown, none => False
  | some .unknown, some _ => True
  | some (.known r), e => e = some (.known r)

/-- Identifiers of the rooms a server can serve. -/
def xids (g : Server) : List Nat := g.rooms.map Room.xid

/-- Canonical form of the undirected edge between `a` and `b`. -/
def pairOf (a b : Nat) : Nat × Nat := (min a b, max a b)

/-- All undirected edges mentioned by the server's rooms, with
multiplicity. -/
def edgeList (g : Server) : List (Nat × Nat) :=
  g.rooms.foldr (fun r acc => r.see.map (fun y => pairOf r.xid y) ++ acc) []

/-- Number of distinct undirected edges of the graph. -/
def edgeCount (g : Server) : Nat := (edgeList g).dedup.length

/-- One hop of the room graph: `b` is listed among the neighbours of the
room with id `a`. -/
def ReachStep (g : Server) (a b : Nat) : Prop :=
  ∃ r ∈ g.rooms, r.xid = a ∧ b ∈ r.see

/-- Reachability along neighbour lists. -/
def Reach (g : Server) : Nat → Nat → Prop :=
  Relation.ReflTransGen (ReachStep g)

/-- Well-formed session setup: the initial request serves `start`, which
is one of the server's rooms, room ids are unique, every referenced id is
served, and every served room is reachable from the start (the graph is
exactly the connected component being explored). -/
structure WFServer (g : Server) (start : Room) : Prop where
  start_resp : g.start = some start
  start_mem : start ∈ g.rooms
  nodupIds : (xids g).Nodup
  closed : ∀ r ∈ g.rooms, ∀ y ∈ r.see, y ∈ xids g
  connected : ∀ r ∈ g.rooms, Reach g start.xid r.xid

/-- Ids with a `known` record in the cache. -/
def knownIds : RoomsMap → List Nat
  | [] => []
  | (k, .known _) :: rest => k :: knownIds rest
  | (_, .unknown) :: rest => knownIds rest

/-- Number of fully fetched rooms in the cache. -/
def knownCount (m : RoomsMap) : Nat := (knownIds m).length

/-- Number of room-object entries on the trail. -/
def objCount (t : List TrailEntry) : Nat :=
  (t.filter fun e => match e with | .obj _ => true | .raw _ => false).length

/-- Termination measure of the main loop: fetching a room pays for the
two trail entries it pushes, and backtracking strictly shortens the
trail. -/
def meas (g : Server) (s : St) : Nat :=
  3 * (g.rooms.length - knownCount s.rooms) + s.trail.length

/-- Discovery certificate: an injective assignment of one undirected edge
of the graph to every discovered (cached) id other than the start, where
each assigned edge has both endpoints already discovered and the owning id
among them.  The existence of such a certificate bounds the number of
discovered ids by the number of distinct edges plus one. -/
structure DiscInv (g : Server) (start : Nat) (m : RoomsMap)
    (M : List (Nat × (Nat × Nat))) : Prop where
  keysN : (M.map Prod.fst).Nodup
  keysEq : ∀ x, x ∈ M.map Prod.fst ↔ (x ∈ m.map Prod.fst ∧ x ≠ start)
  pairsN : (M.map Prod.snd).Nodup
  pairsE : ∀ p ∈ M, p.2 ∈ edgeList g
  endsDisc : ∀ p ∈ M, p.2.1 ∈ m.map Prod.fst ∧ p.2.2 ∈ m.map Prod.fst
  endsSelf : ∀ p ∈ M, p.2.1 = p.1 ∨ p.2.2 = p.1

/-- Loop invariant of an exploration session: cache keys are unique and
served by the server, known records are genuine server rooms stored under
their own id, the current room and all room objects on the trail are
known, the starting room is cached, the request count is covered by twice
the number of known rooms, and a discovery certificate exists. -/
structure Inv (g : Server) (start : Room) (cur : Room) (s : St) : Prop where
  keysNodup : (s.rooms.map Prod.fst).Nodup
  keysSub : ∀ x ∈ s.rooms.map Prod.fst, x ∈ xids g
  knownG : ∀ x r, lookupRoom s.rooms x = some (Entry.known r) →
    r ∈ g.rooms ∧ r.xid = x
  curKnown : lookupRoom s.rooms cur.xid = some (Entry.known cur)
  trailKnown : ∀ r : Room, TrailEntry.obj r ∈ s.trail →
    lookupRoom s.rooms r.xid = some (Entry.known r)
  startMem : start.xid ∈ s.rooms.map Prod.fst
  counting : s.requests + objCount s.trail + 1 ≤ 2 * knownCount s.rooms
  disc : ∃ M, DiscInv g start.xid s.rooms M

/-! Lemmas about the cache association list. -/

theorem lookupRoom_eq_none (m : RoomsMap) (k : Nat) :
    lookupRoom m k = none ↔ k ∉ m.map Prod.fst := by
  induction m with
  | nil => simp [lookupRoom]
  | cons p rest ih =>
      cases p with | mk a b =>
      by_cases h : a = k
      · subst h; simp [lookupRoom]
      · simp [lookupRoom, h, ih, Ne.symm h]

theorem lookupRoom_isSome_iff (m : RoomsMap) (k : Nat) :
    (lookupRoom m k).isSome ↔ k ∈ m.map Prod.fst := by
  cases h : lookupRoom m k with
  | none => simp [(lookupRoom_eq_none m k).mp h]
  | some e =>
      have hk : k ∈ m.map Prod.fst := by
        by_contra hk
        have h2 := (lookupRoom_eq_none m k).mpr hk
        rw [h] at h2
        simp at h2
      simp [hk]

theorem lookupRoom_setRoom_self (m : RoomsMap) (k : Nat) (v : Entry) :
    lookupRoom (setRoom m k v) k = some v := by
  induction m with
  | nil => simp [setRoom, lookupRoom]
  | cons p rest ih =>
      cases p with | mk a b =>
      by_cases h : a = k
      · subst h; simp [setRoom, lookupRoom]
      · simp [setRoom, lookupRoom, h, ih]

theorem lookupRoom_setRoom_ne (m : RoomsMap) (k : Nat) (v : Entry) (x : Nat)
    (h : x ≠ k) : lookupRoom (setRoom m k v) x = lookupRoom m x := by
  induction m with
  | nil => simp [setRoom, lookupRoom, Ne.symm h]
  | cons p rest ih =>
      cases p with | mk a b =>
      by_cases hp : a = k
      · subst hp; simp [setRoom, lookupRoom, Ne.symm h]
      · by_cases ha : a = x
        · subst ha; simp [setRoom, lookupRoom, hp]
        · simp [setRoom, lookupRoom, hp, ha, ih]

theorem map_fst_setRoom_mem (m : RoomsMap) (k : Nat) (v : Entry)
    (h : k ∈ m.map Prod.fst) :
    (setRoom m k v).map Prod.fst = m.map Prod.fst := by
  induction m with
  | nil => simp at h
  | cons p rest ih =>
      by_cases hp : p.1 = k
      · simp [setRoom, hp]
      · simp only [List.map_cons, List.mem_cons] at h
        rcases h with h | h
        · exact absurd h.symm hp
        · simp [setRoom, hp, ih h]

theorem map_fst_setRoom_not_mem (m : RoomsMap) (k : Nat) (v : Entry)
    (h : k ∉ m.map Prod.fst) :
    (setRoom m k v).map Prod.fst = m.map Prod.fst ++ [k] := by
  induction m with
  | nil => simp [setRoom]
  | cons p rest ih =>
      simp only [List.map_cons, List.mem_cons] at h
      push_neg at h
      simp [setRoom, Ne.symm h.1, ih h.2]

theorem nodup_setRoom (m : RoomsMap) (k : Nat) (v : Entry)
    (h : (m.map Prod.fst).Nodup) :
    ((setRoom m k v).map Prod.fst).Nodup := by
  by_cases hk : k ∈ m.map Prod.fst
  · rw [map_fst_setRoom_mem m k v hk]; exact h
  · rw [map_fst_setRoom_not_mem m k v hk]
    rw [List.nodup_append]
    refine ⟨h, List.nodup_singleton k, ?_⟩
    intro x hx hxk
    simp only [List.mem_singleton] at hxk
    subst hxk
    exact hk hx

/-! Lemmas about `remember` and its fold over a neighbour list. -/

theorem lookupRoom_rememberOp (m : RoomsMap) (y x : Nat) :
    lookupRoom (rememberOp m y) x =
      if x = y ∧ lookupRoom m y = none then some Entry.unknown
      else lookupRoom m x := by
  unfold rememberOp
  cases hy : lookupRoom m y with
  | none =>
      by_cases hxy : x = y
      · subst hxy; simp [hy, lookupRoom_setRoom_self]
      · simp [hy, hxy, lookupRoom_setRoom_ne m y .unknown x hxy]
  | some e => simp [hy]

theorem lookupRoom_foldl_remember (see : List Nat) (m : RoomsMap) (x : Nat) :
    lookupRoom (see.foldl rememberOp m) x =
      if x ∈ see ∧ lookupRoom m x = none then some Entry.unknown
      else lookupRoom m x := by
  induction see generalizing m with
  | nil => simp
  | cons y ys ih =>
      simp only [List.foldl_cons]
      rw [ih (rememberOp m y)]
      by_cases hxy : x = y
      · subst hxy
        cases hx : lookupRoom m x with
        | none => simp [lookupRoom_rememberOp, hx]
        | some e => simp [lookupRoom_rememberOp, hx]
      · rw [lookupRoom_rememberOp m y x]
        by_cases hy : lookupRoom m y = none <;>
          by_cases hx : lookupRoom m x = none <;>
            simp [hxy, hy, hx]

theorem map_fst_rememberOp_superset (m : RoomsMap) (y x : Nat)
    (h : x ∈ m.map Prod.fst) : x ∈ (rememberOp m y).map Prod.fst := by
  unfold rememberOp
  cases hy : lookupRoom m y with
  | none =>
      by_cases hm : y ∈ m.map Prod.fst
      · rw [map_fst_setRoom_mem m y .unknown hm]; exact h
      · rw [map_fst_setRoom_not_mem m y .unknown hm]; exact List.mem_append_left _ h
  | some e => exact h

theorem nodup_rememberOp (m : RoomsMap) (y : Nat)
    (h : (m.map Prod.fst).Nodup) : ((rememberOp m y).map Prod.fst).Nodup := by
  unfold rememberOp
  cases lookupRoom m y with
  | none => exact nodup_setRoom m y .unknown h
  | some e => exact h

theorem map_fst_foldl_remember_superset (see : List Nat) (m : RoomsMap) (x : Nat)
    (h : x ∈ m.map Prod.fst) : x ∈ (see.foldl rememberOp m).map Prod.fst := by
  induction see generalizing m with
  | nil => exact h
  | cons y ys ih => exact ih (rememberOp m y) (map_fst_rememberOp_superset m y x h)

theorem nodup_foldl_remember (see : List Nat) (m : RoomsMap)
    (h : (m.map Prod.fst).Nodup) : ((see.foldl rememberOp m).map Prod.fst).Nodup := by
  induction see generalizing m with
  | nil => exact h
  | cons y ys ih => exact ih (rememberOp m y) (nodup_rememberOp m y h)

/-! The forward order on cache entries and monotonicity of the cache. -/

theorem entryLe_refl (e : Option Entry) : entryLe e e := by
  match e with
  | none => trivial
  | some .unknown => trivial
  | some (.known r) => rfl

theorem entryLe_trans (a b c : Option Entry)
    (h1 : entryLe a b) (h2 : entryLe b c) : entryLe a c := by
  match a, b with
  | none, _ => trivial
  | some .unknown, none => cases h1
  | some .unknown, some .unknown => exact h2
  | some .unknown, some (.known r) =>
      rw [show c = some (Entry.known r) from h2]
      trivial
  | some (.known r), b =>
      rw [show b = some (Entry.known r) from h1] at h2
      exact h2

theorem entryLe_rememberOp (m : RoomsMap) (y x : Nat) :
    entryLe (lookupRoom m x) (lookupRoom (rememberOp m y) x) := by
  rw [lookupRoom_rememberOp m y x]
  by_cases h : x = y ∧ lookupRoom m y = none
  · rw [if_pos h, h.1, h.2]; trivial
  · rw [if_neg h]; exact entryLe_refl _

theorem entryLe_foldl_remember (see : List Nat) (m : RoomsMap) (x : Nat) :
    entryLe (lookupRoom m x) (lookupRoom (see.foldl rememberOp m) x) := by
  rw [lookupRoom_foldl_remember see m x]
  by_cases h : x ∈ see ∧ lookupRoom m x = none
  · rw [if_pos h, h.2]; trivial
  · rw [if_neg h]; exact entryLe_refl _

theorem entryLe_cacheRun (r : Room) (s : St) (x : Nat) :
    entryLe (lookupRoom s.rooms x) (lookupRoom ((cacheRun r s).1).rooms x) := by
  unfold cacheRun
  by_cases hc : lookupRoom s.rooms r.xid = none
      ∨ lookupRoom s.rooms r.xid = some .unknown
  · rw [if_pos hc]
    simp only
    refine entryLe_trans _ (lookupRoom (setRoom s.rooms r.xid (.known r)) x) _
      ?_ (entryLe_foldl_remember r.see _ x)
    by_cases hx : x = r.xid
    · subst hx
      rw [lookupRoom_setRoom_self]
      rcases hc with hc | hc <;> rw [hc] <;> trivial
    · rw [lookupRoom_setRoom_ne s.rooms r.xid (.known r) x hx]
      exact entryLe_refl _
  · rw [if_neg hc]
    exact entryLe_refl _

theorem entryLe_applyOp (s : St) (op : CacheOp) (x : Nat) :
    entryLe (lookupRoom s.rooms x) (lookupRoom ((applyOp s op)).rooms x) := by
  cases op with
  | fetched r => exact entryLe_cacheRun r s x
  | referenced y => exact entryLe_rememberOp s.rooms y x

theorem entryLe_applyOps (ops : List CacheOp) (s : St) (x : Nat) :
    entryLe (lookupRoom s.rooms x) (lookupRoom ((applyOps ops s)).rooms x) := by
  induction ops generalizing s with
  | nil => exact entryLe_refl _
  | cons op rest ih =>
      exact entryLe_trans _ (lookupRoom ((applyOp s op)).rooms x) _
        (entryLe_applyOp s op x) (ih (applyOp s op))

theorem known_entryLe (e : Option Entry) (r : Room)
    (h : entryLe (some (Entry.known r)) e) : e = some (Entry.known r) := h

/-! Lemmas about frontier selection and move responses. -/

theorem selectNext_eq_some (m : RoomsMap) (see : List Nat) (x : Nat)
    (h : selectNext m see = some x) :
    x ∈ see ∧ lookupRoom m x = some Entry.unknown := by
  unfold selectNext at h
  have hx := List.mem_of_find?_eq_some h
  have hp := List.find?_some h
  simp only [beq_iff_eq] at hp
  exact ⟨hx, hp⟩

theorem cacheRun_snd (r : Room) (s : St) : (cacheRun r s).2 = r := by
  unfold cacheRun
  split <;> rfl

theorem cacheRun_cond_state (r : Room) (s : St)
    (h : lookupRoom s.rooms r.xid = none
      ∨ lookupRoom s.rooms r.xid = some Entry.unknown) :
    (cacheRun r s).1 =
      { s with trail := TrailEntry.raw r.xid :: s.trail,
               rooms := r.see.foldl rememberOp (setRoom s.rooms r.xid (.known r)) } := by
  unfold cacheRun
  rw [if_pos h]

theorem cacheRun_noop (r : Room) (s : St)
    (h : ¬(lookupRoom s.rooms r.xid = none
      ∨ lookupRoom s.rooms r.xid = some Entry.unknown)) :
    cacheRun r s = (s, r) := by
  unfold cacheRun
  rw [if_neg h]

theorem backtrackGo_cons (g : Server) (cur : Room) (back : TrailEntry)
    (rest : List TrailEntry) (s0 : St) :
    backtrackGo g cur (back :: rest) s0 =
      match back.backXid with
      | some bx =>
          if bx ∈ cur.see then BtOut.moved (moveRun g bx { s0 with trail := rest })
          else backtrackGo g cur rest s0
      | none => backtrackGo g cur rest s0 := rfl

theorem backtrackGo_cons_skip (g : Server) (cur : Room) (back : TrailEntry)
    (rest : List TrailEntry) (s0 : St)
    (h : ∀ x, back.backXid = some x → x ∉ cur.see) :
    backtrackGo g cur (back :: rest) s0 = backtrackGo g cur rest s0 := by
  rw [backtrackGo_cons]
  cases hbx : back.backXid with
  | none => rfl
  | some bx => exact if_neg (h bx hbx)

theorem backtrackGo_cons_hit (g : Server) (cur : Room) (back : TrailEntry)
    (rest : List TrailEntry) (s0 : St) (bx : Nat)
    (hbx : back.backXid = some bx) (hmem : bx ∈ cur.see) :
    backtrackGo g cur (back :: rest) s0 =
      BtOut.moved (moveRun g bx { s0 with trail := rest }) := by
  rw [backtrackGo_cons, hbx]
  exact if_pos hmem

/-! Theorems settling the frozen claims. -/

/-- C1: the spec says the renderer is notified once per successful fetch,
initial fetch included, giving 5 `paint` calls A,B,A,C,A on the scenario
graph.  The code chains `paint` only onto `move`, never onto `begin`, so
the session on the scenario graph paints exactly B,A,C,A (4 calls) and the
starting room is never painted at all, although the doc comment of `cache`
says that it updates the view. -/
theorem initial_room_never_painted :
    paintTrace (run scenario 20) = some [1, 0, 2, 0]
    ∧ (some [1, 0, 2, 0] : Option (List Nat)) ≠ some [0, 1, 0, 2, 0]
    ∧ (beginRun scenario St.init).1.paints = [] :=
  ⟨by decide, by decide, by decide⟩

/-- C2 counterexample: immediately after initialization (the starting room
has been fetched, merged as known and set as current), the trail is not
empty: the `cache` step of the initial fetch has pushed the starting
room's bare identifier onto it. -/
theorem trail_nonempty_after_begin :
    (beginRun scenario St.init).1.trail = [TrailEntry.raw 0]
    ∧ (beginRun scenario St.init).1.trail ≠ [] :=
  ⟨by decide, by decide⟩

/-- C2 amended: after initialization the trail holds exactly one entry,
the starting room's bare id, pushed by `cache`; each move to a brand-new
(unknown) room pushes two entries, the departed room object (pushed by
`main` before the request) and the new room's bare id (pushed by `cache`);
and the backtracking loop only pops entries before issuing its move. -/
theorem trail_push_discipline (g : Server) (r room cur : Room) (s : St) (xid : Nat) :
    (g.start = some r → (beginRun g St.init).1.trail = [TrailEntry.raw r.xid])
    ∧ (selectNext s.rooms cur.see = some xid → moveResp g xid = some room →
        room.xid = xid →
        (moveRun g xid { s with trail := TrailEntry.obj cur :: s.trail }).1.trail
          = TrailEntry.raw xid :: TrailEntry.obj cur :: s.trail)
    ∧ (∀ (t : List TrailEntry) (s0 : St),
        backtrackGo g cur t s0 = BtOut.exhausted { s0 with trail := [] }
        ∨ ∃ pre back rest bx, t = pre ++ back :: rest
            ∧ TrailEntry.backXid back = some bx
            ∧ backtrackGo g cur t s0 = BtOut.moved (moveRun g bx { s0 with trail := rest })) := by
  refine ⟨?_, ?_, ?_⟩
  · intro h
    simp only [beginRun, reqRun, h]
    rfl
  · intro h1 h2 h3
    have hu := (selectNext_eq_some s.rooms cur.see xid h1).2
    simp only [moveRun, reqRun, h2]
    rw [cacheRun_cond_state room
      { s with trail := TrailEntry.obj cur :: s.trail,
               requests := s.requests + 1 }
      (by rw [h3]; exact Or.inr hu)]
    simp [paintRun, h3]
  · intro t
    induction t with
    | nil => intro s0; left; rfl
    | cons back rest ih =>
        intro s0
        cases hbx : back.backXid with
        | none =>
            have hstep := backtrackGo_cons_skip g cur back rest s0
              (fun x hx => by rw [hbx] at hx; cases hx)
            rcases ih s0 with he | ⟨pre, b, r2, bx, ht, hb, hgo⟩
            · left; rw [hstep, he]
            · right
              exact ⟨back :: pre, b, r2, bx, by rw [ht]; rfl, hb, by rw [hstep, hgo]⟩
        | some bx =>
            by_cases hmem : bx ∈ cur.see
            · right
              exact ⟨[], back, rest, bx, rfl, hbx,
                backtrackGo_cons_hit g cur back rest s0 bx hbx hmem⟩
            · have hstep := backtrackGo_cons_skip g cur back rest s0
                (fun x hx => by rw [hbx] at hx; cases hx; exact hmem)
              rcases ih s0 with he | ⟨pre, b, r2, bx2, ht, hb, hgo⟩
              · left; rw [hstep, he]
              · right
                exact ⟨back :: pre, b, r2, bx2, by rw [ht]; rfl, hb, by rw [hstep, hgo]⟩

/-- Witness for the amended C2: the hypotheses are satisfied by the
scenario graph, where the trail right after initialization is exactly the
starting room's bare id. -/
theorem trail_push_discipline_witness :
    scenario.start = some roomA
    ∧ (beginRun scenario St.init).1.trail = [TrailEntry.raw roomA.xid] :=
  ⟨rfl, (trail_push_discipline scenario roomA roomB roomA St.init 1).1 rfl⟩

/-- C3: a failed request during a move or the initial fetch raises exactly
one user alert and leaves both the cache and the trail exactly as they
were when the request was issued; the step performs one round trip and
rejects. -/
theorem request_failure_preserves_state (g : Server) (xid : Nat) (s : St) :
    (moveResp g xid = none →
      moveRun g xid s =
        ({ s with requests := s.requests + 1, alerts := s.alerts + 1 },
          Except.error JsErr.syntaxError)
      ∧ (moveRun g xid s).1.rooms = s.rooms
      ∧ (moveRun g xid s).1.trail = s.trail
      ∧ (moveRun g xid s).1.alerts = s.alerts + 1)
    ∧ (g.start = none →
      beginRun g s =
        ({ s with requests := s.requests + 1, alerts := s.alerts + 1 },
          Except.error JsErr.syntaxError)
      ∧ (beginRun g s).1.rooms = s.rooms
      ∧ (beginRun g s).1.trail = s.trail
      ∧ (beginRun g s).1.alerts = s.alerts + 1) := by
  constructor
  · intro h
    have he : moveRun g xid s =
        ({ s with requests := s.requests + 1, alerts := s.alerts + 1 },
          Except.error JsErr.syntaxError) := by
      simp only [moveRun, reqRun, h]
    exact ⟨he, by rw [he], by rw [he], by rw [he]⟩
  · intro h
    have he : beginRun g s =
        ({ s with requests := s.requests + 1, alerts := s.alerts + 1 },
          Except.error JsErr.syntaxError) := by
      simp only [beginRun, reqRun, h]
    exact ⟨he, by rw [he], by rw [he], by rw [he]⟩

/-- Witness for C3: the all-failing server refuses a move for a stale id
and the state is untouched apart from the alert and request counters. -/
theorem request_failure_preserves_state_witness :
    moveResp gFail 99 = none
    ∧ moveRun gFail 99 St.init =
        ({ St.init with requests := 1, alerts := 1 }, Except.error JsErr.syntaxError) :=
  ⟨rfl, ((request_failure_preserves_state gFail 99 St.init).1 rfl).1⟩

/-- C5: under every sequence of `cache` and `remember` operations, each
id's cache entry only moves forward through unseen, unknown, known, and a
known record (its neighbour list included) is never overwritten. -/
theorem cache_state_monotone (ops : List CacheOp) (s : St) (x : Nat) :
    entryLe (lookupRoom s.rooms x) (lookupRoom ((applyOps ops s)).rooms x)
    ∧ (∀ r : Room, lookupRoom s.rooms x = some (Entry.known r) →
        lookupRoom ((applyOps ops s)).rooms x = some (Entry.known r)) := by
  refine ⟨entryLe_applyOps ops s x, ?_⟩
  intro r h
  have := entryLe_applyOps ops s x
  rw [h] at this
  exact this

/-- Witness for C5: a room recorded as known keeps its record across a
further fetch and a further reference mark. -/
theorem cache_state_monotone_witness :
    lookupRoom ((cacheRun roomA St.init).1).rooms 0 = some (Entry.known roomA)
    ∧ lookupRoom ((applyOps [CacheOp.fetched roomB, CacheOp.referenced 0]
        ((cacheRun roomA St.init).1))).rooms 0 = some (Entry.known roomA) :=
  ⟨by decide,
    (cache_state_monotone [CacheOp.fetched roomB, CacheOp.referenced 0]
      ((cacheRun roomA St.init).1) 0).2 roomA (by decide)⟩

/-- C8: recording a fetched room whose id is unseen or unknown makes that
id known with exactly this record, newly referenced neighbours move from
unseen to unknown while already unknown or known neighbours keep their
entries, other ids are untouched, `remember` is idempotent, and the
operation always passes the record through unchanged. -/
theorem cache_recordFetched_spec (room : Room) (s : St)
    (h : lookupRoom s.rooms room.xid = none
      ∨ lookupRoom s.rooms room.xid = some Entry.unknown) :
    lookupRoom ((cacheRun room s).1).rooms room.xid = some (Entry.known room)
    ∧ (∀ y ∈ room.see, y ≠ room.xid →
        lookupRoom ((cacheRun room s).1).rooms y =
          (if lookupRoom s.rooms y = none then some Entry.unknown
           else lookupRoom s.rooms y))
    ∧ (∀ z, z ≠ room.xid → z ∉ room.see →
        lookupRoom ((cacheRun room s).1).rooms z = lookupRoom s.rooms z)
    ∧ (∀ (m : RoomsMap) (y : Nat), rememberOp (rememberOp m y) y = rememberOp m y)
    ∧ (∀ s2 : St, (cacheRun room s2).2 = room) := by
  have hst := cacheRun_cond_state room s h
  refine ⟨?_, ?_, ?_, ?_, fun s2 => cacheRun_snd room s2⟩
  · rw [hst]
    simp only
    rw [lookupRoom_foldl_remember]
    rw [lookupRoom_setRoom_self]
    simp
  · intro y hy hyx
    rw [hst]
    simp only
    rw [lookupRoom_foldl_remember]
    rw [lookupRoom_setRoom_ne s.rooms room.xid (.known room) y hyx]
    by_cases hz : lookupRoom s.rooms y = none
    · simp [hy, hz]
    · simp [hz]
  · intro z hzx hzsee
    rw [hst]
    simp only
    rw [lookupRoom_foldl_remember]
    rw [lookupRoom_setRoom_ne s.rooms room.xid (.known room) z hzx]
    simp [hzsee]
  · intro m y
    unfold rememberOp
    cases hy : lookupRoom m y with
    | none => rw [lookupRoom_setRoom_self]
    | some e => rw [hy]

/-- Witness for C8: recording room A into the empty cache makes A known
and marks its neighbour B unknown. -/
theorem cache_recordFetched_spec_witness :
    (lookupRoom St.init.rooms roomA.xid = none
      ∨ lookupRoom St.init.rooms roomA.xid = some Entry.unknown)
    ∧ lookupRoom ((cacheRun roomA St.init).1).rooms roomA.xid = some (Entry.known roomA) :=
  ⟨Or.inl (by decide), (cache_recordFetched_spec roomA St.init (Or.inl (by decide))).1⟩

/-- C9: a failed request alerts the user and then feeds `undefined` to
`JSON.parse`, so the pipeline rejects with a `SyntaxError`; a rejected
move makes the main loop abort at once with no retry and no further cache
or trail mutation, and a rejected initial fetch aborts the session with
the page state untouched. -/
theorem request_failure_aborts_loop (g : Server) (cur : Room) (xid : Nat) (s : St)
    (fuel : Nat) :
    (∀ s0 : St, reqRun none s0 =
      ({ s0 with requests := s0.requests + 1, alerts := s0.alerts + 1 },
        Except.error JsErr.syntaxError))
    ∧ (selectNext s.rooms cur.see = some xid → moveResp g xid = none →
        mainLoop g (fuel + 1) cur s = some (Except.error (JsErr.syntaxError,
          { s with trail := TrailEntry.obj cur :: s.trail,
                   requests := s.requests + 1, alerts := s.alerts + 1 })))
    ∧ (g.start = none →
        run g fuel = some (Except.error (JsErr.syntaxError,
          { St.init with requests := 1, alerts := 1 }))) := by
  refine ⟨fun s0 => rfl, ?_, ?_⟩
  · intro h1 h2
    simp only [mainLoop, h1, moveRun, reqRun, h2]
  · intro h
    simp only [run, beginRun, reqRun, h]
    rfl

/-- Witness for C9: on the all-failing server the session aborts after the
single failed initial request, with one alert and nothing cached. -/
theorem request_failure_aborts_loop_witness :
    gFail.start = none
    ∧ run gFail 7 = some (Except.error (JsErr.syntaxError,
        { St.init with requests := 1, alerts := 1 })) :=
  ⟨rfl, (request_failure_aborts_loop gFail roomA 0 St.init 7).2.2 rfl⟩

/-- C10: the `cache` function is not total at its public interface: on an
`undefined` argument the truthiness guard protects only the first disjunct
of its condition and the second disjunct dereferences `room.xid`, throwing
a `TypeError`; on any actual room object it runs normally. -/
theorem cache_undefined_throws (s : St) :
    cacheJS none s = Except.error JsErr.typeError
    ∧ ∀ r : Room, cacheJS (some r) s = Except.ok (cacheRun r s) :=
  ⟨rfl, fun _ => rfl⟩

/-! Characterization of frontier selection, and the backtracking branch of
the main loop. -/

theorem selectNext_iff (m : RoomsMap) (see : List Nat) (x : Nat) :
    selectNext m see = some x ↔
      ∃ pre post, see = pre ++ x :: post
        ∧ (∀ y ∈ pre, lookupRoom m y ≠ some Entry.unknown)
        ∧ lookupRoom m x = some Entry.unknown := by
  induction see with
  | nil =>
      constructor
      · intro h; simp [selectNext] at h
      · rintro ⟨pre, post, hsee, -, -⟩
        exact absurd hsee (by simp)
  | cons z zs ih =>
      by_cases hz : lookupRoom m z = some Entry.unknown
      · have hfind : selectNext m (z :: zs) = some z :=
          List.find?_cons_of_pos zs (by simp [hz])
        constructor
        · intro h
          rw [hfind] at h
          injection h with h
          subst h
          exact ⟨[], zs, rfl, by simp, hz⟩
        · rintro ⟨pre, post, hsee, hpre, hx⟩
          cases pre with
          | nil =>
              simp only [List.nil_append, List.cons.injEq] at hsee
              rw [hfind, hsee.1]
          | cons w pre2 =>
              rw [List.cons_append] at hsee
              injection hsee with h1 h2
              subst h1
              exact absurd hz (hpre z (by simp))
      · have hfind : selectNext m (z :: zs) = selectNext m zs :=
          List.find?_cons_of_neg zs (by simp [hz])
        rw [hfind, ih]
        constructor
        · rintro ⟨pre, post, hsee, hpre, hx⟩
          refine ⟨z :: pre, post, by rw [hsee, List.cons_append], ?_, hx⟩
          intro y hy
          rcases List.mem_cons.mp hy with h | h
          · rw [h]; exact hz
          · exact hpre y h
        · rintro ⟨pre, post, hsee, hpre, hx⟩
          cases pre with
          | nil =>
              simp only [List.nil_append, List.cons.injEq] at hsee
              exact absurd (hsee.1 ▸ hx) hz
          | cons w pre2 =>
              rw [List.cons_append] at hsee
              injection hsee with h1 h2
              exact ⟨pre2, post, h2, fun y hy => hpre y (List.mem_cons_of_mem w hy), hx⟩

/-- C7: the frontier target of a main-loop iteration is the first id of
the current room's neighbour list, scanned strictly left to right, whose
cache entry is exactly unknown; and since every cache mutation the program
performs is a `cache` or `remember` operation, a known room is never again
returned by the frontier scan in any later state. -/
theorem frontier_first_unknown (m : RoomsMap) (see : List Nat) (x : Nat)
    (ops : List CacheOp) (s : St) (r : Room) :
    (selectNext m see = some x ↔
      ∃ pre post, see = pre ++ x :: post
        ∧ (∀ y ∈ pre, lookupRoom m y ≠ some Entry.unknown)
        ∧ lookupRoom m x = some Entry.unknown)
    ∧ (lookupRoom s.rooms x = some (Entry.known r) →
        ∀ see2, selectNext ((applyOps ops s)).rooms see2 ≠ some x) := by
  refine ⟨selectNext_iff m see x, ?_⟩
  intro hk see2 hsel
  have hm := entryLe_applyOps ops s x
  rw [hk] at hm
  have hu := (selectNext_eq_some _ _ _ hsel).2
  rw [known_entryLe _ _ hm] at hu
  simp at hu

/-- Witness for C7: room A, once known, is not selected as frontier from a
neighbour list containing it after a further fetch. -/
theorem frontier_first_unknown_witness :
    lookupRoom ((cacheRun roomA St.init).1).rooms 0 = some (Entry.known roomA)
    ∧ selectNext ((applyOps [CacheOp.fetched roomB]
        ((cacheRun roomA St.init).1))).rooms [0] ≠ some 0 :=
  ⟨by decide,
    (frontier_first_unknown [] [] 0 [CacheOp.fetched roomB]
      ((cacheRun roomA St.init).1) roomA).2 (by decide) [0]⟩

theorem backtrackGo_all_skip (g : Server) (cur : Room) :
    ∀ (t : List TrailEntry) (s0 : St),
      (∀ e ∈ t, ∀ x, TrailEntry.backXid e = some x → x ∉ cur.see) →
      backtrackGo g cur t s0 = BtOut.exhausted { s0 with trail := [] } := by
  intro t
  induction t with
  | nil => intro s0 h; rfl
  | cons back rest ih =>
      intro s0 h
      rw [backtrackGo_cons_skip g cur back rest s0 (h back (by simp))]
      exact ih s0 (fun e he x hx => h e (by simp [he]) x hx)

theorem backtrackGo_split (g : Server) (cur : Room) (pre : List TrailEntry)
    (back : TrailEntry) (rest : List TrailEntry) (s0 : St) (bx : Nat)
    (hpre : ∀ e ∈ pre, ∀ x, TrailEntry.backXid e = some x → x ∉ cur.see)
    (hbx : TrailEntry.backXid back = some bx) (hmem : bx ∈ cur.see) :
    backtrackGo g cur (pre ++ back :: rest) s0 =
      BtOut.moved (moveRun g bx { s0 with trail := rest }) := by
  induction pre with
  | nil => exact backtrackGo_cons_hit g cur back rest s0 bx hbx hmem
  | cons e pre2 ih =>
      rw [List.cons_append, backtrackGo_cons_skip g cur e _ s0 (hpre e (by simp))]
      exact ih (fun e2 he2 x hx => hpre e2 (by simp [he2]) x hx)

theorem mainLoop_succ (g : Server) (fuel : Nat) (cur : Room) (s : St) :
    mainLoop g (fuel + 1) cur s =
      match selectNext s.rooms cur.see with
      | some xid =>
          match moveRun g xid { s with trail := .obj cur :: s.trail } with
          | (s2, .error e) => some (.error (e, s2))
          | (s2, .ok next) => mainLoop g fuel next s2
      | none =>
          match s.trail with
          | [] => some (.ok s)
          | _ :: _ =>
              match backtrackLoop g cur s with
              | .moved (s2, .error e) => some (.error (e, s2))
              | .moved (s2, .ok next) => mainLoop g fuel next s2
              | .exhausted s2 => mainLoop g fuel cur s2 := rfl

theorem mainLoop_succ_front (g : Server) (fuel : Nat) (cur : Room) (s : St)
    (xid : Nat) (h : selectNext s.rooms cur.see = some xid) :
    mainLoop g (fuel + 1) cur s =
      match moveRun g xid { s with trail := .obj cur :: s.trail } with
      | (s2, .error e) => some (.error (e, s2))
      | (s2, .ok next) => mainLoop g fuel next s2 := by
  rw [mainLoop_succ, h]

theorem mainLoop_succ_done (g : Server) (fuel : Nat) (cur : Room) (s : St)
    (h1 : selectNext s.rooms cur.see = none) (h2 : s.trail = []) :
    mainLoop g (fuel + 1) cur s = some (.ok s) := by
  rw [mainLoop_succ, h1, h2]

theorem mainLoop_succ_back (g : Server) (fuel : Nat) (cur : Room) (s : St)
    (hfront : selectNext s.rooms cur.see = none) (htrail : s.trail ≠ []) :
    mainLoop g (fuel + 1) cur s =
      match backtrackLoop g cur s with
      | .moved (s2, .error e) => some (.error (e, s2))
      | .moved (s2, .ok next) => mainLoop g fuel next s2
      | .exhausted s2 => mainLoop g fuel cur s2 := by
  rw [mainLoop_succ, hfront]
  cases h : s.trail with
  | nil => exact absurd h htrail
  | cons a t => rfl

/-- C6: when the current room has no unknown neighbour and the trail is
not empty, the loop pops trail entries one at a time, issues a move to the
first popped entry whose evaluated id (`back.xid`) appears in the current
room's neighbour list and resumes the main loop with the move's result;
if no popped entry qualifies, the trail is drained and the session then
terminates normally with no further requests. -/
theorem backtrack_pops_to_first_adjacent (g : Server) (cur : Room) (s : St)
    (fuel : Nat) (pre : List TrailEntry) (back : TrailEntry)
    (rest : List TrailEntry) (bx : Nat) :
    (s.trail = pre ++ back :: rest →
      (∀ e ∈ pre, ∀ x, TrailEntry.backXid e = some x → x ∉ cur.see) →
      TrailEntry.backXid back = some bx → bx ∈ cur.see →
      selectNext s.rooms cur.see = none →
      backtrackLoop g cur s = BtOut.moved (moveRun g bx { s with trail := rest })
      ∧ (∀ s2 next, moveRun g bx { s with trail := rest } = (s2, Except.ok next) →
          mainLoop g (fuel + 1) cur s = mainLoop g fuel next s2))
    ∧ (selectNext s.rooms cur.see = none →
        s.trail ≠ [] →
        (∀ e ∈ s.trail, ∀ x, TrailEntry.backXid e = some x → x ∉ cur.see) →
        mainLoop g (fuel + 2) cur s = some (Except.ok { s with trail := [] })
        ∧ ({ s with trail := [] } : St).requests = s.requests) := by
  constructor
  · intro ht hpre hbx hmem hfront
    have hbl : backtrackLoop g cur s =
        BtOut.moved (moveRun g bx { s with trail := rest }) := by
      unfold backtrackLoop
      rw [ht]
      exact backtrackGo_split g cur pre back rest s bx hpre hbx hmem
    refine ⟨hbl, ?_⟩
    intro s2 next hmv
    rw [mainLoop_succ_back g fuel cur s hfront (by rw [ht]; simp), hbl, hmv]
  · intro hfront htrail hskip
    have hbl : backtrackLoop g cur s = BtOut.exhausted { s with trail := [] } := by
      unfold backtrackLoop
      exact backtrackGo_all_skip g cur s.trail s hskip
    have h1 : mainLoop g (fuel + 2) cur s =
        mainLoop g (fuel + 1) cur { s with trail := [] } := by
      rw [mainLoop_succ_back g (fuel + 1) cur s hfront htrail, hbl]
    have h2 : mainLoop g (fuel + 1) cur { s with trail := [] } =
        some (Except.ok { s with trail := [] }) := by
      rw [mainLoop_succ]
      have : selectNext ({ s with trail := ([] : List TrailEntry)}).rooms cur.see = none :=
        hfront
      rw [this]
    exact ⟨h1.trans h2, rfl⟩

/-- Witness for C6: in the scenario state after entering B, backtracking
skips B's bare id, finds the popped room object A adjacent to B, and moves
to A; in the single-room state the trail drains and the session ends with
the single initial request. -/
theorem backtrack_pops_to_first_adjacent_witness :
    (midState.trail = [TrailEntry.raw 1] ++ TrailEntry.obj roomA :: [TrailEntry.raw 0]
      ∧ TrailEntry.backXid (TrailEntry.obj roomA) = some 0
      ∧ (0 : Nat) ∈ roomB.see
      ∧ backtrackLoop scenario roomB midState =
          BtOut.moved (moveRun scenario 0 { midState with trail := [TrailEntry.raw 0] }))
    ∧ (selectNext midSolo.rooms roomSolo.see = none
      ∧ mainLoop gSolo 2 roomSolo midSolo = some (Except.ok { midSolo with trail := [] })) := by
  constructor
  · exact ⟨rfl, rfl, by decide,
      ((backtrack_pops_to_first_adjacent scenario roomB midState 0
        [TrailEntry.raw 1] (TrailEntry.obj roomA) [TrailEntry.raw 0] 0).1
        rfl (by decide) rfl (by decide) (by decide)).1⟩
  · exact ⟨by decide,
      ((backtrack_pops_to_first_adjacent gSolo roomSolo midSolo 0
        [] (TrailEntry.raw 0) [] 0).2 (by decide) (by decide) (by decide)).1⟩

/-! Counting lemmas for the termination and request-bound argument. -/

theorem length_le_of_nodup_subset {α : Type} [DecidableEq α] (l1 l2 : List α)
    (h1 : l1.Nodup) (h2 : ∀ x ∈ l1, x ∈ l2) : l1.length ≤ l2.length := by
  calc l1.length = l1.toFinset.card := (List.toFinset_card_of_nodup h1).symm
    _ ≤ l2.toFinset.card := Finset.card_le_card (fun x hx =>
        List.mem_toFinset.mpr (h2 x (List.mem_toFinset.mp hx)))
    _ ≤ l2.length := l2.toFinset_card_le

theorem knownIds_sublist (m : RoomsMap) :
    List.Sublist (knownIds m) (m.map Prod.fst) := by
  induction m with
  | nil => exact List.Sublist.refl []
  | cons p rest ih =>
      cases p with | mk k e =>
      cases e with
      | known r => exact List.Sublist.cons₂ k ih
      | unknown => exact List.Sublist.cons k ih

theorem mem_keys_of_lookup (m : RoomsMap) (x : Nat) (e : Entry)
    (h : lookupRoom m x = some e) : x ∈ m.map Prod.fst := by
  by_contra hx
  rw [(lookupRoom_eq_none m x).mpr hx] at h
  cases h

theorem knownIds_mem_of_lookup (m : RoomsMap) (x : Nat) (r : Room)
    (h : lookupRoom m x = some (Entry.known r)) : x ∈ knownIds m := by
  induction m with
  | nil => cases h
  | cons p rest ih =>
      cases p with | mk k e =>
      by_cases hk : k = x
      · subst hk
        rw [lookupRoom, if_pos rfl] at h
        injection h with h
        subst h
        simp [knownIds]
      · rw [lookupRoom, if_neg hk] at h
        cases e with
        | known r2 => exact List.mem_cons_of_mem k (ih h)
        | unknown => exact ih h

theorem knownCount_le_length (m : RoomsMap) : knownCount m ≤ m.length := by
  have h := (knownIds_sublist m).length_le
  rw [List.length_map] at h
  exact h

theorem objCount_cons_raw (x : Nat) (t : List TrailEntry) :
    objCount (TrailEntry.raw x :: t) = objCount t := rfl

theorem objCount_cons_obj (r : Room) (t : List TrailEntry) :
    objCount (TrailEntry.obj r :: t) = objCount t + 1 := by
  simp [objCount, List.filter_cons]

theorem pairOf_fst (a y : Nat) : (pairOf a y).1 = a ∨ (pairOf a y).1 = y := by
  unfold pairOf
  rcases le_total a y with h | h
  · left; simp [min_eq_left h]
  · right; simp [min_eq_right h]

theorem pairOf_snd (a y : Nat) : (pairOf a y).2 = a ∨ (pairOf a y).2 = y := by
  unfold pairOf
  rcases le_total a y with h | h
  · right; simp [max_eq_right h]
  · left; simp [max_eq_left h]

theorem pairOf_endpoint (a y : Nat) : (pairOf a y).1 = y ∨ (pairOf a y).2 = y := by
  unfold pairOf
  rcases le_total a y with h | h
  · right; simp [max_eq_right h]
  · left; simp [min_eq_right h]

theorem pairOf_mem_edgeList_aux (l : List Room) (r : Room) (y : Nat)
    (hr : r ∈ l) (hy : y ∈ r.see) :
    pairOf r.xid y ∈
      l.foldr (fun r2 acc => r2.see.map (fun z => pairOf r2.xid z) ++ acc) [] := by
  induction l with
  | nil => cases hr
  | cons b bs ih =>
      rcases List.mem_cons.mp hr with h | h
      · subst h
        exact List.mem_append_left _ (List.mem_map_of_mem _ hy)
      · exact List.mem_append_right _ (ih h)

theorem pairOf_mem_edgeList (g : Server) (r : Room) (y : Nat)
    (hr : r ∈ g.rooms) (hy : y ∈ r.see) : pairOf r.xid y ∈ edgeList g :=
  pairOf_mem_edgeList_aux g.rooms r y hr hy

theorem moveResp_of_mem_xids (g : Server) (x : Nat) (h : x ∈ xids g) :
    ∃ r, moveResp g x = some r ∧ r ∈ g.rooms ∧ r.xid = x := by
  obtain ⟨r, hr, hx⟩ := List.mem_map.mp h
  have hs : (g.rooms.find? (fun r2 => r2.xid == x)).isSome :=
    List.find?_isSome.mpr ⟨r, hr, by simp [hx]⟩
  obtain ⟨r2, hr2⟩ := Option.isSome_iff_exists.mp hs
  refine ⟨r2, hr2, List.mem_of_find?_eq_some hr2, ?_⟩
  have := List.find?_some hr2
  simpa using this

theorem room_unique (g : Server) (hn : (xids g).Nodup) (r1 r2 : Room)
    (h1 : r1 ∈ g.rooms) (h2 : r2 ∈ g.rooms) (hx : r1.xid = r2.xid) : r1 = r2 :=
  List.inj_on_of_nodup_map hn h1 h2 hx

theorem map_fst_rememberOp_sub (m : RoomsMap) (y x : Nat)
    (h : x ∈ (rememberOp m y).map Prod.fst) :
    x ∈ m.map Prod.fst ∨ x = y := by
  unfold rememberOp at h
  cases hy : lookupRoom m y with
  | none =>
      rw [hy] at h
      by_cases hm : y ∈ m.map Prod.fst
      · rw [map_fst_setRoom_mem m y .unknown hm] at h; exact Or.inl h
      · rw [map_fst_setRoom_not_mem m y .unknown hm] at h
        rcases List.mem_append.mp h with h | h
        · exact Or.inl h
        · exact Or.inr (List.mem_singleton.mp h)
  | some e => rw [hy] at h; exact Or.inl h

theorem map_fst_foldl_remember_sub (see : List Nat) (m : RoomsMap) (x : Nat)
    (h : x ∈ (see.foldl rememberOp m).map Prod.fst) :
    x ∈ m.map Prod.fst ∨ x ∈ see := by
  induction see generalizing m with
  | nil => exact Or.inl h
  | cons y ys ih =>
      rcases ih (rememberOp m y) h with h2 | h2
      · rcases map_fst_rememberOp_sub m y x h2 with h3 | h3
        · exact Or.inl h3
        · exact Or.inr (by rw [h3]; exact List.mem_cons_self y ys)
      · exact Or.inr (List.mem_cons_of_mem y h2)

theorem lookup_foldl_remember_some (see : List Nat) (m : RoomsMap) (x : Nat)
    (e : Entry) (h : lookupRoom m x = some e) :
    lookupRoom (see.foldl rememberOp m) x = some e := by
  rw [lookupRoom_foldl_remember]
  rw [h]
  simp

theorem lookup_foldl_remember_known (see : List Nat) (m : RoomsMap) (x : Nat)
    (r : Room) (h : lookupRoom (see.foldl rememberOp m) x = some (Entry.known r)) :
    lookupRoom m x = some (Entry.known r) := by
  rw [lookupRoom_foldl_remember] at h
  by_cases hc : x ∈ see ∧ lookupRoom m x = none
  · rw [if_pos hc] at h; cases h
  · rw [if_neg hc] at h; exact h

theorem knownIds_setRoom_unknown_fresh (m : RoomsMap) (k : Nat)
    (h : lookupRoom m k = none) :
    knownIds (setRoom m k .unknown) = knownIds m := by
  induction m with
  | nil => rfl
  | cons p rest ih =>
      cases p with | mk a e =>
      by_cases hak : a = k
      · subst hak
        rw [lookupRoom, if_pos rfl] at h
        cases h
      · rw [lookupRoom, if_neg hak] at h
        cases e with
        | known r => simp [setRoom, hak, knownIds, ih h]
        | unknown => simp [setRoom, hak, knownIds, ih h]

theorem knownCount_cons_known (a : Nat) (r : Room) (l : RoomsMap) :
    knownCount ((a, .known r) :: l) = knownCount l + 1 := rfl

theorem knownCount_cons_unknown (a : Nat) (l : RoomsMap) :
    knownCount ((a, .unknown) :: l) = knownCount l := rfl

theorem knownCount_rememberOp (m : RoomsMap) (y : Nat) :
    knownCount (rememberOp m y) = knownCount m := by
  unfold rememberOp
  cases hy : lookupRoom m y with
  | none =>
      unfold knownCount
      rw [knownIds_setRoom_unknown_fresh m y hy]
  | some e => rfl

theorem knownCount_foldl_remember (see : List Nat) (m : RoomsMap) :
    knownCount (see.foldl rememberOp m) = knownCount m := by
  induction see generalizing m with
  | nil => rfl
  | cons y ys ih => rw [List.foldl_cons, ih, knownCount_rememberOp]

theorem knownCount_setRoom_known (m : RoomsMap) (k : Nat) (r : Room)
    (h : lookupRoom m k = none ∨ lookupRoom m k = some Entry.unknown) :
    knownCount (setRoom m k (.known r)) = knownCount m + 1 := by
  induction m with
  | nil => rfl
  | cons p rest ih =>
      cases p with | mk a e =>
      by_cases hak : a = k
      · subst hak
        have he : e = Entry.unknown := by
          rcases h with h | h
          · rw [lookupRoom, if_pos rfl] at h; cases h
          · rw [lookupRoom, if_pos rfl] at h; injection h
        subst he
        have hset : setRoom ((a, Entry.unknown) :: rest) a (.known r)
            = (a, .known r) :: rest := by
          simp [setRoom]
        rw [hset, knownCount_cons_known, knownCount_cons_unknown]
      · have h2 : lookupRoom rest k = none ∨ lookupRoom rest k = some Entry.unknown := by
          rcases h with h | h
          · rw [lookupRoom, if_neg hak] at h; exact Or.inl h
          · rw [lookupRoom, if_neg hak] at h; exact Or.inr h
        have hset : setRoom ((a, e) :: rest) k (.known r)
            = (a, e) :: setRoom rest k (.known r) := by
          simp [setRoom, hak]
        cases e with
        | known r2 =>
            rw [hset, knownCount_cons_known, knownCount_cons_known, ih h2]
        | unknown =>
            rw [hset, knownCount_cons_unknown, knownCount_cons_unknown, ih h2]

/-! Preservation and cardinality of the discovery certificate. -/

theorem discInv_congr (g : Server) (start : Nat) (m m2 : RoomsMap)
    (M : List (Nat × (Nat × Nat))) (h : m2.map Prod.fst = m.map Prod.fst)
    (hM : DiscInv g start m M) : DiscInv g start m2 M := by
  refine ⟨hM.keysN, ?_, hM.pairsN, hM.pairsE, ?_, hM.endsSelf⟩
  · intro x
    rw [h]
    exact hM.keysEq x
  · intro p hp
    rw [h]
    exact hM.endsDisc p hp

theorem discInv_remember (g : Server) (start a y : Nat) (m : RoomsMap)
    (M : List (Nat × (Nat × Nat)))
    (ha : a ∈ m.map Prod.fst) (hstart : start ∈ m.map Prod.fst)
    (hedge : pairOf a y ∈ edgeList g) (hM : DiscInv g start m M) :
    ∃ M2, DiscInv g start (rememberOp m y) M2 := by
  by_cases hy : y ∈ m.map Prod.fst
  · refine ⟨M, ?_⟩
    have hl : lookupRoom m y ≠ none :=
      fun hc => ((lookupRoom_eq_none m y).mp hc) hy
    unfold rememberOp
    cases hlk : lookupRoom m y with
    | none => exact absurd hlk hl
    | some e => exact hM
  · have hl : lookupRoom m y = none := (lookupRoom_eq_none m y).mpr hy
    have hkeys : (rememberOp m y).map Prod.fst = m.map Prod.fst ++ [y] := by
      unfold rememberOp
      rw [hl]
      exact map_fst_setRoom_not_mem m y .unknown hy
    refine ⟨(y, pairOf a y) :: M, ?_, ?_, ?_, ?_, ?_, ?_⟩
    · simp only [List.map_cons]
      refine List.nodup_cons.mpr ⟨?_, hM.keysN⟩
      intro hmem
      exact hy ((hM.keysEq y).mp hmem).1
    · intro x
      simp only [List.map_cons, List.mem_cons, hkeys, List.mem_append,
        List.mem_singleton, List.not_mem_nil, or_false]
      constructor
      · rintro (h | h)
        · subst h
          exact ⟨Or.inr rfl, fun he => hy (he ▸ hstart)⟩
        · have h2 := (hM.keysEq x).mp h
          exact ⟨Or.inl h2.1, h2.2⟩
      · rintro ⟨h1 | h1, h2⟩
        · exact Or.inr ((hM.keysEq x).mpr ⟨h1, h2⟩)
        · exact Or.inl h1
    · simp only [List.map_cons]
      refine List.nodup_cons.mpr ⟨?_, hM.pairsN⟩
      intro hmem
      obtain ⟨p, hp, hpe⟩ := List.mem_map.mp hmem
      have hends := hM.endsDisc p hp
      rcases pairOf_endpoint a y with h | h
      · rw [← hpe] at h
        rw [← h] at hy
        exact hy hends.1
      · rw [← hpe] at h
        rw [← h] at hy
        exact hy hends.2
    · intro p hp
      rcases List.mem_cons.mp hp with h | h
      · rw [h]
        exact hedge
      · exact hM.pairsE p h
    · intro p hp
      rcases List.mem_cons.mp hp with h | h
      · subst h
        rw [hkeys]
        constructor
        · rcases pairOf_fst a y with h2 | h2 <;> rw [h2]
          · exact List.mem_append_left _ ha
          · exact List.mem_append_right _ (List.mem_singleton.mpr rfl)
        · rcases pairOf_snd a y with h2 | h2 <;> rw [h2]
          · exact List.mem_append_left _ ha
          · exact List.mem_append_right _ (List.mem_singleton.mpr rfl)
      · have h2 := hM.endsDisc p h
        rw [hkeys]
        exact ⟨List.mem_append_left _ h2.1, List.mem_append_left _ h2.2⟩
    · intro p hp
      rcases List.mem_cons.mp hp with h | h
      · subst h
        exact pairOf_endpoint a y
      · exact hM.endsSelf p h

theorem discInv_foldl_remember (g : Server) (start a : Nat) (see : List Nat) :
    ∀ (m : RoomsMap) (M : List (Nat × (Nat × Nat))),
      a ∈ m.map Prod.fst → start ∈ m.map Prod.fst →
      (∀ y ∈ see, pairOf a y ∈ edgeList g) →
      DiscInv g start m M →
      ∃ M2, DiscInv g start (see.foldl rememberOp m) M2 := by
  induction see with
  | nil => intro m M _ _ _ hM; exact ⟨M, hM⟩
  | cons y ys ih =>
      intro m M ha hstart hedge hM
      obtain ⟨M2, hM2⟩ := discInv_remember g start a y m M ha hstart
        (hedge y (List.mem_cons_self y ys)) hM
      exact ih (rememberOp m y) M2
        (map_fst_rememberOp_superset m y a ha)
        (map_fst_rememberOp_superset m y start hstart)
        (fun z hz => hedge z (List.mem_cons_of_mem y hz)) hM2

theorem discInv_card (g : Server) (start : Nat) (m : RoomsMap)
    (M : List (Nat × (Nat × Nat))) (hM : DiscInv g start m M)
    (hnodup : (m.map Prod.fst).Nodup) :
    (m.map Prod.fst).length ≤ M.length + 1 ∧ M.length ≤ edgeCount g := by
  constructor
  · have hsub : ∀ x ∈ m.map Prod.fst, x ∈ start :: M.map Prod.fst := by
      intro x hx
      by_cases hxs : x = start
      · rw [hxs]; exact List.mem_cons_self _ _
      · exact List.mem_cons_of_mem _ ((hM.keysEq x).mpr ⟨hx, hxs⟩)
    have := length_le_of_nodup_subset _ _ hnodup hsub
    simpa using this
  · have h2 : ∀ p ∈ M.map Prod.snd, p ∈ (edgeList g).dedup := by
      intro p hp
      obtain ⟨q, hq, he⟩ := List.mem_map.mp hp
      rw [List.mem_dedup]
      exact he ▸ hM.pairsE q hq
    have := length_le_of_nodup_subset _ _ hM.pairsN h2
    simpa [edgeCount] using this

/-! Preservation of the loop invariant by the two kinds of step. -/

theorem objCount_cons_le (e : TrailEntry) (t : List TrailEntry) :
    objCount t ≤ objCount (e :: t) := by
  cases e with
  | obj r => rw [objCount_cons_obj]; exact Nat.le_succ _
  | raw x => rw [objCount_cons_raw]

theorem knownCount_le_rooms (g : Server) (m : RoomsMap)
    (hn : (m.map Prod.fst).Nodup) (hsub : ∀ x ∈ m.map Prod.fst, x ∈ xids g) :
    knownCount m ≤ g.rooms.length := by
  have h1 : (knownIds m).Nodup := (knownIds_sublist m).nodup hn
  have h2 : ∀ x ∈ knownIds m, x ∈ xids g :=
    fun x hx => hsub x ((knownIds_sublist m).subset hx)
  have h3 := length_le_of_nodup_subset _ _ h1 h2
  rw [xids, List.length_map] at h3
  exact h3

theorem forward_step (g : Server) (start cur : Room) (hwf : WFServer g start)
    (s : St) (xid : Nat) (hinv : Inv g start cur s)
    (hsel : selectNext s.rooms cur.see = some xid) :
    ∃ room s2,
      moveRun g xid { s with trail := TrailEntry.obj cur :: s.trail } = (s2, Except.ok room)
      ∧ Inv g start room s2
      ∧ knownCount s2.rooms = knownCount s.rooms + 1
      ∧ s2.trail.length = s.trail.length + 2 := by
  have hu : lookupRoom s.rooms xid = some Entry.unknown :=
    (selectNext_eq_some s.rooms cur.see xid hsel).2
  have hxid : xid ∈ xids g :=
    hinv.keysSub xid (mem_keys_of_lookup s.rooms xid Entry.unknown hu)
  obtain ⟨room, hresp, hroomg, hroomx⟩ := moveResp_of_mem_xids g xid hxid
  have hux : lookupRoom s.rooms room.xid = some Entry.unknown := by
    rw [hroomx]; exact hu
  have hkeyseq : (setRoom s.rooms room.xid (.known room)).map Prod.fst
      = s.rooms.map Prod.fst :=
    map_fst_setRoom_mem s.rooms room.xid _
      (mem_keys_of_lookup s.rooms room.xid Entry.unknown hux)
  refine ⟨room,
    { rooms := room.see.foldl rememberOp (setRoom s.rooms room.xid (.known room)),
      trail := TrailEntry.raw room.xid :: TrailEntry.obj cur :: s.trail,
      paints := s.paints ++ [room],
      alerts := s.alerts,
      requests := s.requests + 1 }, ?_, ?_, ?_, ?_⟩
  · simp only [moveRun, reqRun, hresp]
    rw [cacheRun_cond_state room
      { s with trail := TrailEntry.obj cur :: s.trail, requests := s.requests + 1 }
      (Or.inr hux)]
    simp [paintRun, cacheRun_snd]
  · have hpres : ∀ r2 : Room, lookupRoom s.rooms r2.xid = some (Entry.known r2) →
        lookupRoom (room.see.foldl rememberOp
          (setRoom s.rooms room.xid (.known room))) r2.xid
          = some (Entry.known r2) := by
      intro r2 h2
      have hne : r2.xid ≠ room.xid := by
        intro he
        rw [he, hux] at h2
        cases h2
      exact lookup_foldl_remember_some _ _ _ _
        (by rw [lookupRoom_setRoom_ne s.rooms room.xid _ r2.xid hne]; exact h2)
    refine ⟨?_, ?_, ?_, ?_, ?_, ?_, ?_, ?_⟩
    · exact nodup_foldl_remember _ _ (nodup_setRoom _ _ _ hinv.keysNodup)
    · intro x hx
      rcases map_fst_foldl_remember_sub _ _ _ hx with h | h
      · rw [hkeyseq] at h
        exact hinv.keysSub x h
      · exact hwf.closed room hroomg x h
    · intro x r2 h2
      have h3 := lookup_foldl_remember_known _ _ _ _ h2
      by_cases hx : x = room.xid
      · subst hx
        rw [lookupRoom_setRoom_self] at h3
        injection h3 with h3
        injection h3 with h3
        subst h3
        exact ⟨hroomg, rfl⟩
      · rw [lookupRoom_setRoom_ne s.rooms room.xid _ x hx] at h3
        exact hinv.knownG x r2 h3
    · exact lookup_foldl_remember_some _ _ _ _ (lookupRoom_setRoom_self _ _ _)
    · intro r2 h2
      simp only [List.mem_cons] at h2
      rcases h2 with h2 | h2 | h2
      · cases h2
      · have : r2 = cur := by injection h2
        subst this
        exact hpres r2 hinv.curKnown
      · exact hpres r2 (hinv.trailKnown r2 h2)
    · have := hinv.startMem
      rw [← hkeyseq] at this
      exact map_fst_foldl_remember_superset _ _ _ this
    · have hk : knownCount (room.see.foldl rememberOp
          (setRoom s.rooms room.xid (.known room)))
          = knownCount s.rooms + 1 := by
        rw [knownCount_foldl_remember, knownCount_setRoom_known _ _ _ (Or.inr hux)]
      have hc := hinv.counting
      simp only [hk, objCount_cons_raw, objCount_cons_obj]
      omega
    · obtain ⟨M, hM⟩ := hinv.disc
      have hM2 := discInv_congr g start.xid s.rooms
        (setRoom s.rooms room.xid (.known room)) M hkeyseq hM
      exact discInv_foldl_remember g start.xid room.xid room.see
        (setRoom s.rooms room.xid (.known room)) M
        (by rw [hkeyseq]
            exact mem_keys_of_lookup s.rooms room.xid Entry.unknown hux)
        (by rw [hkeyseq]; exact hinv.startMem)
        (fun y hy => pairOf_mem_edgeList g room y hroomg hy) hM2
  · simp only
    rw [knownCount_foldl_remember, knownCount_setRoom_known _ _ _ (Or.inr hux)]
  · simp

theorem backtrackGo_inv (g : Server) (start cur : Room) (hwf : WFServer g start) :
    ∀ (t : List TrailEntry) (s : St), Inv g start cur { s with trail := t } →
      (backtrackGo g cur t s = BtOut.exhausted { s with trail := [] }
        ∧ Inv g start cur { s with trail := [] })
      ∨ (∃ s2 next, backtrackGo g cur t s = BtOut.moved (s2, Except.ok next)
          ∧ Inv g start next s2
          ∧ knownCount s2.rooms = knownCount s.rooms
          ∧ s2.trail.length < t.length) := by
  intro t
  induction t with
  | nil => intro s hinv; left; exact ⟨rfl, hinv⟩
  | cons back rest ih =>
      intro s hinv
      have hinvRest : Inv g start cur { s with trail := rest } := by
        refine ⟨hinv.keysNodup, hinv.keysSub, hinv.knownG, hinv.curKnown, ?_,
          hinv.startMem, ?_, hinv.disc⟩
        · intro r2 h2
          exact hinv.trailKnown r2 (List.mem_cons_of_mem back h2)
        · have h1 := hinv.counting
          have h2 := objCount_cons_le back rest
          simp only at h1 ⊢
          omega
      cases hbx : back.backXid with
      | none =>
          rw [backtrackGo_cons_skip g cur back rest s
            (fun x hx => by rw [hbx] at hx; cases hx)]
          rcases ih s hinvRest with ⟨he, hi⟩ | ⟨s2, next, he, hi, hk, hl⟩
          · exact Or.inl ⟨he, hi⟩
          · exact Or.inr ⟨s2, next, he, hi, hk, Nat.lt_succ_of_lt hl⟩
      | some bx =>
          by_cases hmem : bx ∈ cur.see
          · -- the popped entry is a room object adjacent to the current room
            have hback : ∃ r : Room, back = TrailEntry.obj r ∧ r.xid = bx := by
              cases back with
              | obj r => exact ⟨r, rfl, by injection hbx⟩
              | raw z => cases hbx
            obtain ⟨r, hbe, hrx⟩ := hback
            have hknown : lookupRoom s.rooms r.xid = some (Entry.known r) := by
              have := hinv.trailKnown r (by rw [hbe]; exact List.mem_cons_self _ _)
              exact this
            have hrg := hinv.knownG r.xid r hknown
            have hbxx : bx ∈ xids g := by
              rw [← hrx]
              exact List.mem_map_of_mem Room.xid hrg.1
            obtain ⟨room2, hresp, hroom2g, hroom2x⟩ := moveResp_of_mem_xids g bx hbxx
            have hreq : room2 = r :=
              room_unique g hwf.nodupIds room2 r hroom2g hrg.1 (by rw [hroom2x, hrx])
            have hnoop : ¬(lookupRoom s.rooms room2.xid = none
                ∨ lookupRoom s.rooms room2.xid = some Entry.unknown) := by
              rw [hreq]
              intro hc
              rcases hc with hc | hc <;> rw [hknown] at hc <;> cases hc
            have hmv : moveRun g bx { s with trail := rest } =
                ({ s with
                    trail := rest
                    paints := s.paints ++ [room2]
                    requests := s.requests + 1 }, Except.ok room2) := by
              simp only [moveRun, reqRun, hresp]
              rw [cacheRun_noop room2
                { s with trail := rest, requests := s.requests + 1 } hnoop]
              simp [paintRun]
            right
            refine ⟨{ s with
                trail := rest
                paints := s.paints ++ [room2]
                requests := s.requests + 1 }, room2, ?_, ?_, rfl, ?_⟩
            · rw [backtrackGo_cons_hit g cur back rest s bx hbx hmem, hmv]
            · refine ⟨hinv.keysNodup, hinv.keysSub, hinv.knownG, ?_, ?_,
                hinv.startMem, ?_, hinv.disc⟩
              · rw [hreq]
                exact hknown
              · intro r2 h2
                exact hinv.trailKnown r2 (List.mem_cons_of_mem back h2)
              · have h1 := hinv.counting
                have h2 : objCount (back :: rest) = objCount rest + 1 := by
                  rw [hbe, objCount_cons_obj]
                simp only at h1 ⊢
                omega
            · exact Nat.lt_succ_self _
          · rw [backtrackGo_cons_skip g cur back rest s
              (fun x hx => by rw [hbx] at hx; injection hx with hx; exact hx ▸ hmem)]
            rcases ih s hinvRest with ⟨he, hi⟩ | ⟨s2, next, he, hi, hk, hl⟩
            · exact Or.inl ⟨he, hi⟩
            · exact Or.inr ⟨s2, next, he, hi, hk, Nat.lt_succ_of_lt hl⟩

/-! Termination of the main loop and the session-level request bound. -/

theorem mainLoop_terminates (g : Server) (start : Room) (hwf : WFServer g start) :
    ∀ (fuel : Nat) (cur : Room) (s : St), Inv g start cur s → meas g s < fuel →
      ∃ s2, mainLoop g fuel cur s = some (Except.ok s2)
        ∧ ∃ cur2, Inv g start cur2 s2 := by
  intro fuel
  induction fuel with
  | zero => intro cur s _ hm; exact absurd hm (Nat.not_lt_zero _)
  | succ n ih =>
      intro cur s hinv hm
      cases hsel : selectNext s.rooms cur.see with
      | some xid =>
          obtain ⟨room, s2, hmv, hinv2, hk, hl⟩ :=
            forward_step g start cur hwf s xid hinv hsel
          have hK : knownCount s.rooms + 1 ≤ g.rooms.length := by
            have := knownCount_le_rooms g s2.rooms hinv2.keysNodup hinv2.keysSub
            rw [hk] at this
            exact this
          have hm2 : meas g s2 < n := by
            unfold meas at hm ⊢
            rw [hk, hl]
            omega
          obtain ⟨s3, hml, hc⟩ := ih room s2 hinv2 hm2
          refine ⟨s3, ?_, hc⟩
          rw [mainLoop_succ_front g n cur s xid hsel, hmv]
          exact hml
      | none =>
          cases ht : s.trail with
          | nil =>
              exact ⟨s, mainLoop_succ_done g n cur s hsel ht, cur, hinv⟩
          | cons e t =>
              have htne : s.trail ≠ [] := by rw [ht]; simp
              have hbt := backtrackGo_inv g start cur hwf s.trail s hinv
              rcases hbt with ⟨he, hi⟩ | ⟨s2, next, he, hi, hk, hl⟩
              · have hm2 : meas g ({ s with trail := [] } : St) < n := by
                  unfold meas at hm ⊢
                  rw [ht] at hm
                  simp only [List.length_cons, List.length_nil] at hm ⊢
                  omega
                obtain ⟨s3, hml, hc⟩ := ih cur _ hi hm2
                refine ⟨s3, ?_, hc⟩
                rw [mainLoop_succ_back g n cur s hsel htne]
                have hbl : backtrackLoop g cur s = BtOut.exhausted { s with trail := [] } := he
                rw [hbl]
                exact hml
              · have hm2 : meas g s2 < n := by
                  unfold meas at hm ⊢
                  rw [hk]
                  omega
                obtain ⟨s3, hml, hc⟩ := ih next s2 hi hm2
                refine ⟨s3, ?_, hc⟩
                rw [mainLoop_succ_back g n cur s hsel htne]
                have hbl : backtrackLoop g cur s = BtOut.moved (s2, Except.ok next) := he
                rw [hbl]
                exact hml

theorem beginRun_wf (g : Server) (start : Room) (hwf : WFServer g start) :
    beginRun g St.init =
      ({ rooms := start.see.foldl rememberOp [(start.xid, Entry.known start)],
         trail := [TrailEntry.raw start.xid],
         paints := [],
         alerts := 0,
         requests := 1 }, Except.ok start)
    ∧ Inv g start start
        { rooms := start.see.foldl rememberOp [(start.xid, Entry.known start)],
          trail := [TrailEntry.raw start.xid],
          paints := [],
          alerts := 0,
          requests := 1 } := by
  constructor
  · have hb : beginRun g St.init =
        ((cacheRun start { St.init with requests := St.init.requests + 1 }).1,
          Except.ok ((cacheRun start { St.init with requests := St.init.requests + 1 }).2)) := by
      simp only [beginRun, reqRun, hwf.start_resp]
    rw [cacheRun_cond_state start { St.init with requests := St.init.requests + 1 }
      (Or.inl rfl), cacheRun_snd] at hb
    exact hb
  · have hsing : lookupRoom [(start.xid, Entry.known start)] start.xid
        = some (Entry.known start) := by
      rw [lookupRoom, if_pos rfl]
    refine ⟨?_, ?_, ?_, ?_, ?_, ?_, ?_, ?_⟩
    · exact nodup_foldl_remember _ _ (by simp)
    · intro x hx
      rcases map_fst_foldl_remember_sub _ _ _ hx with h | h
      · simp only [List.map_cons, List.map_nil, List.mem_singleton] at h
        rw [h]
        exact List.mem_map_of_mem Room.xid hwf.start_mem
      · exact hwf.closed start hwf.start_mem x h
    · intro x r2 h2
      have h3 := lookup_foldl_remember_known _ _ _ _ h2
      by_cases hx : start.xid = x
      · rw [lookupRoom, if_pos hx] at h3
        injection h3 with h3
        injection h3 with h3
        subst h3
        exact ⟨hwf.start_mem, hx⟩
      · rw [lookupRoom, if_neg hx] at h3
        cases h3
    · exact lookup_foldl_remember_some _ _ _ _ hsing
    · intro r2 h2
      simp at h2
    · exact map_fst_foldl_remember_superset _ _ _ (by simp)
    · have hkc : knownCount (start.see.foldl rememberOp
          [(start.xid, Entry.known start)]) = 1 := by
        rw [knownCount_foldl_remember]
        rfl
      simp only [hkc, objCount_cons_raw]
      rfl
    · have hbase : DiscInv g start.xid [(start.xid, Entry.known start)] [] := by
        refine ⟨List.nodup_nil, ?_, List.nodup_nil, ?_, ?_, ?_⟩
        · intro x
          simp only [List.map_nil, List.not_mem_nil, List.map_cons,
            List.mem_singleton, false_iff]
          rintro ⟨h1, h2⟩
          exact h2 h1
        · intro p hp; cases hp
        · intro p hp; cases hp
        · intro p hp; cases hp
      exact discInv_foldl_remember g start.xid start.xid start.see
        [(start.xid, Entry.known start)] [] (by simp) (by simp)
        (fun y hy => pairOf_mem_edgeList g start y hwf.start_mem hy) hbase

/-- C4 amended: for every finite connected room graph served from the
starting room, the exploration loop terminates, and the total number of
request round trips is at most 2·E + 1, where E is the number of distinct
undirected edges of the reachable component: every forward move consumes a
freshly discovered room (each charged to a distinct edge), every backward
move repays one forward move, and the initial fetch contributes the extra
one that the claimed bound of 2·E omits. -/
theorem explorer_terminates_within_edge_bound (g : Server) (start : Room)
    (hwf : WFServer g start) :
    ∃ s, run g (3 * g.rooms.length + 3) = some (Except.ok s)
      ∧ s.requests ≤ 2 * edgeCount g + 1 := by
  obtain ⟨hbegin, hinv1⟩ := beginRun_wf g start hwf
  have hV : 0 < g.rooms.length := List.length_pos_of_mem hwf.start_mem
  have hkc : knownCount (start.see.foldl rememberOp
      [(start.xid, Entry.known start)]) = 1 := by
    rw [knownCount_foldl_remember]
    rfl
  have hmeas : meas g
      { rooms := start.see.foldl rememberOp [(start.xid, Entry.known start)],
        trail := [TrailEntry.raw start.xid],
        paints := [],
        alerts := 0,
        requests := 1 } < 3 * g.rooms.length + 3 := by
    unfold meas
    simp only [hkc, List.length_cons, List.length_nil]
    omega
  obtain ⟨s2, hml, cur2, hinv2⟩ := mainLoop_terminates g start hwf
    (3 * g.rooms.length + 3) start _ hinv1 hmeas
  refine ⟨s2, ?_, ?_⟩
  · unfold run
    rw [hbegin]
    exact hml
  · obtain ⟨M, hM⟩ := hinv2.disc
    have hcard := discInv_card g start.xid s2.rooms M hM hinv2.keysNodup
    have hKle : knownCount s2.rooms ≤ (s2.rooms.map Prod.fst).length :=
      (knownIds_sublist s2.rooms).length_le
    have hc := hinv2.counting
    omega

theorem scenario_connected : ∀ r ∈ scenario.rooms, Reach scenario roomA.xid r.xid := by
  intro r hr
  have hAB : ReachStep scenario roomA.xid roomB.xid := ⟨roomA, by decide, rfl, by decide⟩
  have hAC : ReachStep scenario roomA.xid roomC.xid := ⟨roomA, by decide, rfl, by decide⟩
  have hmem : r = roomA ∨ r = roomB ∨ r = roomC := by
    simpa [scenario] using hr
  rcases hmem with h | h | h <;> subst h
  · exact Relation.ReflTransGen.refl
  · exact Relation.ReflTransGen.single hAB
  · exact Relation.ReflTransGen.single hAC

/-- Witness for the amended C4: the scenario graph is well formed, the
session on it terminates, and its request count respects the 2·E + 1
bound. -/
theorem explorer_terminates_within_edge_bound_witness :
    ∃ s, run scenario (3 * scenario.rooms.length + 3) = some (Except.ok s)
      ∧ s.requests ≤ 2 * edgeCount scenario + 1 :=
  explorer_terminates_within_edge_bound scenario roomA
    ⟨rfl, by decide, by decide, by decide, scenario_connected⟩

/-- C4 counterexample: the single-room graph is finite and connected with
no edges at all (E = 0), yet the session performs one request round trip,
the initial fetch, exceeding the claimed bound of 2·E = 0 round trips. -/
theorem solo_run_exceeds_edge_bound :
    WFServer gSolo roomSolo
    ∧ requestsOf (run gSolo 5) = some 1
    ∧ edgeCount gSolo = 0
    ∧ ¬(1 ≤ 2 * edgeCount gSolo) := by
  refine ⟨⟨rfl, by decide, by decide, by decide, ?_⟩, by decide, by decide, by decide⟩
  intro r hr
  have hmem : r = roomSolo := by
    simpa [gSolo] using hr
  subst hmem
  exact Relation.ReflTransGen.refl

end Brizzo
